import Mathlib

/-!
Shallow embedding of `src/jan28-lsi/jan28-vector-spaces.ipynb` (a minimal
vector-space retrieval engine) and proofs about it.

Modelling conventions:
* Python strings are Lean `String`; `str.split()` (whitespace split dropping
  empty pieces) is `pySplit`; the Python substring operator `term in d` on raw
  strings is `pyIn` (contiguous-subsequence test on the character lists).
* Python lists are Lean `List`; `list.index(x)` (first position of an equal
  element) is `List.indexOf`.
* The `defaultdict(list)` inverted index is an association list
  `List (String × List ℕ)`; `ddGet` models subscripting a `defaultdict`:
  a missing key is inserted with the default `[]` (the mutation is returned
  as the second component).
* A Python `set` of non-negative ints is modelled as CPython 2.7's
  open-addressing hash table (`PySet`): slot of `x` is `x mod size` with the
  documented probe recurrence on collision, growth at 2/3 fill, and iteration
  in slot order — so iteration order is ascending only absent collisions.
* Array entries are exact integers (`ℤ`; every stored value is 0 or 1, and
  the dot products are small integers, all exactly representable in float64).
  Two numeric semantics are provided for the derived float expressions:
  `distance`/`simKey` carry the exact real values (`Real.sqrt`, exact
  division, with `npDiv` giving IEEE special values: `0/0` is the value
  `nan`, no exception is ever raised), while `F64`/`distanceF64` model the
  bit-level float64 evaluation, each operation correctly rounded
  (round-to-nearest, ties-to-even) as IEEE-754 prescribes.
* `search` in the notebook calls `get_hits`, which is not defined in the
  notebook (it survives only as stale kernel state). Modelled from the spec:
  the candidate-retrieval step of §4.6 is `get_postings`, which matches the
  notebook's demo output.
-/

namespace VSM

/-- Helper for `pySplit`: walk the character list, keeping the current token
run (in reverse) and emitting it at each whitespace boundary. -/
def pySplitAux : List Char → List Char → List String
  | cur, [] => if cur = [] then [] else [String.mk cur.reverse]
  | cur, c :: rest =>
    if c.isWhitespace then
      if cur = [] then pySplitAux [] rest
      else String.mk cur.reverse :: pySplitAux [] rest
    else pySplitAux (c :: cur) rest

/-- Python `str.split()` with no argument: the maximal whitespace-free runs of
the string, in order, with no empty tokens produced. -/
def pySplit (s : String) : List String := pySplitAux [] s.data

/-- Whether the first list is an initial run of the second
(`str.startswith` on character lists). -/
def leadEq : List Char → List Char → Bool
  | [], _ => true
  | _ :: _, [] => false
  | a :: as, b :: bs => a == b && leadEq as bs

/-- Whether `needle` occurs contiguously inside the second list. -/
def subOf (needle : List Char) : List Char → Bool
  | [] => needle.isEmpty
  | c :: t => leadEq needle (c :: t) || subOf needle t

/-- The Python substring operator `term in d` on raw strings. -/
def pyIn (term d : String) : Bool := subOf term.data d.data

/-- The body of `build_lexicon`'s loop: append a token unless already seen. -/
def addToken (lex : List String) (t : String) : List String :=
  if t ∈ lex then lex else lex ++ [t]

/-- `build_lexicon`'s accumulation loops: tokens in order of first appearance. -/
def accumTokens (docs : List String) : List String :=
  docs.foldl (fun lex d => (pySplit d).foldl addToken lex) []

/-- Strict codepoint-lexicographic comparison of character lists, as an
executable boolean (numpy's byte/codepoint string comparison). -/
def strLtB : List Char → List Char → Bool
  | [], [] => false
  | [], _ :: _ => true
  | _ :: _, [] => false
  | a :: as, b :: bs => if a < b then true else if b < a then false else strLtB as bs

/-- Executable `≤` on strings (negation of strict comparison the other way). -/
def strLeB (a b : String) : Bool := !(strLtB b.data a.data)

theorem strLtB_iff (as bs : List Char) :
    strLtB as bs = true ↔ List.Lex (fun a b => a < b) as bs := by
  induction as generalizing bs with
  | nil =>
    cases bs with
    | nil =>
      simp only [strLtB, Bool.false_eq_true, false_iff]
      exact fun h => by cases h
    | cons b bs => simp only [strLtB, true_iff]; exact List.Lex.nil
  | cons a as ih =>
    cases bs with
    | nil =>
      simp only [strLtB, Bool.false_eq_true, false_iff]
      exact fun h => by cases h
    | cons b bs =>
      simp only [strLtB]
      split_ifs with h1 h2
      · simp only [true_iff]
        exact List.Lex.rel h1
      · simp only [Bool.false_eq_true, false_iff]
        intro h
        cases h with
        | cons h => exact lt_irrefl _ h2
        | rel h => exact absurd h h1
      · have hab : a = b := le_antisymm (not_lt.mp h2) (not_lt.mp h1)
        subst hab
        rw [ih bs]
        constructor
        · exact fun h => List.Lex.cons h
        · intro h
          cases h with
          | cons h => exact h
          | rel h => exact absurd h h1

theorem strLeB_iff (a b : String) : strLeB a b = true ↔ a ≤ b := by
  have h1 : strLtB b.data a.data = true ↔ b < a := by
    rw [strLtB_iff]
    exact (@String.lt_iff_toList_lt b a).symm
  rw [strLeB, Bool.not_eq_true']
  rw [show (a ≤ b) = ¬ b < a from propext not_lt.symm, ← h1]
  cases hbt : strLtB b.data a.data <;> simp [hbt]

/-- An executable decision procedure for `≤` on strings (the library one is
built on iterator recursion, which the kernel cannot evaluate). -/
def decStrLe : DecidableRel (fun a b : String => a ≤ b) :=
  fun a b => decidable_of_iff (strLeB a b = true) (strLeB_iff a b)

/-- `build_lexicon` from the notebook: accumulate unseen tokens in order of
first appearance, then sort (numpy `sort`, ascending codepoint-lexicographic). -/
def build_lexicon (docs : List String) : List String :=
  @List.insertionSort String (fun a b => a ≤ b) decStrLe (accumTokens docs)

/-- The inverted index: an association list standing for the Python dict
(one entry per lexicon term, in lexicon order). -/
abbrev Index := List (String × List ℕ)

/-- The inner loops of `build_inverted_index`: for the given term, the list of
`documents.index(d)` (first position of an equal document) over the documents
`d` whose token list contains the term, in document order. -/
def postingsFor (documents : List String) (term : String) : List ℕ :=
  documents.foldl (fun acc d =>
    if term ∈ pySplit d then acc ++ [documents.indexOf d] else acc) []

/-- `build_inverted_index` from the notebook. -/
def build_inverted_index (documents : List String) : Index :=
  (build_lexicon documents).map (fun term => (term, postingsFor documents term))

/-- The value `index[t]` reads without inserting: the stored postings list,
or `[]` when the key is absent. -/
def ddValue (idx : Index) (t : String) : List ℕ := (idx.lookup t).getD []

/-- Subscripting a `defaultdict(list)`: a present key returns its value and
leaves the dict unchanged; a missing key is inserted mapped to `[]`. -/
def ddGet (idx : Index) (k : String) : List ℕ × Index :=
  match idx.lookup k with
  | some v => (v, idx)
  | none => ([], idx ++ [(k, [])])

/-- Sequential `defaultdict` lookups, threading the dict state. -/
def ddGetMany (idx : Index) (ks : List String) : List (List ℕ) × Index :=
  match ks with
  | [] => ([], idx)
  | k :: rest =>
    let p := ddGet idx k
    let q := ddGetMany p.2 rest
    (p.1 :: q.1, q.2)

/-- A CPython 2.7 set of non-negative ints: an open-addressing hash table of
slots (table size a power of two, minimum 8); `hash(i) = i` for the
non-negative document identifiers stored here. -/
structure PySet where
  slots : List (Option ℕ)

/-- Iterating a set (`set_next`): the occupied slots in ascending slot order. -/
def pySetToList (s : PySet) : List ℕ := s.slots.filterMap id

/-- The number of stored entries (`used`; equal to `fill` here, since these
code paths never delete). -/
def PySet.used (s : PySet) : ℕ := (pySetToList s).length

/-- A fresh table of `n` empty slots. -/
def pyEmpty (n : ℕ) : PySet := ⟨List.replicate n none⟩

/-- CPython's probe chain (`set_lookkey`): after the initial masked index,
`i = 5*i + perturb + 1` (`i` accumulates unmasked, masked only to index the
table) with `perturb` starting at the hash and shifted right by 5 each step.
Returns the first empty slot index on the chain, `none` if the fuel runs out. -/
def probeEmpty (slots : List (Option ℕ)) : ℕ → ℕ → ℕ → Option ℕ
  | 0, _, _ => none
  | fuel + 1, i, perturb =>
    if slots.getD (i % slots.length) none = none then some (i % slots.length)
    else probeEmpty slots fuel (i * 5 + perturb + 1) (perturb / 32)

/-- First empty slot in plain slot order (the linear fallback used only if the
probe fuel runs out — which CPython's full-period probe recurrence never lets
happen; documented in the CPython sources). -/
def firstNoneIdx : List (Option ℕ) → Option ℕ
  | [] => none
  | none :: _ => some 0
  | some _ :: rest => (firstNoneIdx rest).map (· + 1)

/-- Place a value that is not currently stored at the slot its probe chain
reaches (`set_insert_clean`). -/
def pyPlace (s : PySet) (x : ℕ) : PySet :=
  let j0 := probeEmpty s.slots (x + 2 * s.slots.length + 64) (x % s.slots.length) x
  let j := match j0 with
    | some j => some j
    | none => firstNoneIdx s.slots
  match j with
  | some j => ⟨s.slots.set j (some x)⟩
  | none => s

/-- `set_table_resize`'s size computation: double from the minimum size 8
until strictly above `minused`. -/
def growLoop : ℕ → ℕ → ℕ → ℕ
  | 0, cur, _ => cur
  | fuel + 1, cur, minused => if cur ≤ minused then growLoop fuel (cur * 2) minused else cur

/-- The new table size for a requested minimum capacity. -/
def resizeTarget (minused : ℕ) : ℕ := growLoop (minused + 8) 8 minused

/-- `set_table_resize`: rebuild the table at the new size, re-placing the
entries in slot order with clean inserts. -/
def pyResize (s : PySet) (newsize : ℕ) : PySet :=
  (pySetToList s).foldl pyPlace (pyEmpty newsize)

/-- `set_add_key`: a present key is left alone (the probe finds it; written
here as the extensionally equal membership test); otherwise the key is placed
and the table grows when the fill reaches 2/3 of the slots (growth target
`used*4`, or `used*2` above 50000 entries). -/
def pyAdd (s : PySet) (x : ℕ) : PySet :=
  if x ∈ pySetToList s then s
  else if 3 * (pyPlace s x).used ≥ 2 * (pyPlace s x).slots.length then
    pyResize (pyPlace s x)
      (resizeTarget (if (pyPlace s x).used > 50000 then (pyPlace s x).used * 2
        else (pyPlace s x).used * 4))
  else pyPlace s x

/-- `set(list)`: add the elements in list order into a fresh minimum-size
table. -/
def pyFromList (l : List ℕ) : PySet := l.foldl pyAdd (pyEmpty 8)

/-- `set_copy` (via `set_merge` into a fresh set): pre-grow when the combined
fill would reach 2/3 of the fresh table, then add the source's entries in its
slot order. -/
def pyCopy (s : PySet) : PySet :=
  (pySetToList s).foldl pyAdd
    (if 3 * ((pyEmpty 8).used + s.used) ≥ 2 * (pyEmpty 8).slots.length
      then pyResize (pyEmpty 8) (resizeTarget (((pyEmpty 8).used + s.used) * 4))
      else pyEmpty 8)

/-- `set_intersection`: iterate the smaller set (the second when sizes tie),
keep the members of the larger, adding the hits into a fresh set in iteration
order. The membership test is written against the iteration list; it agrees
with CPython's probe lookup on every reachable table. -/
def pyInter2 (so other : PySet) : PySet :=
  ((pySetToList (if other.used > so.used then so else other)).filter fun x =>
    (pySetToList (if other.used > so.used then other else so)).contains x).foldl
    pyAdd (pyEmpty 8)

/-- `set.intersection(*map(set, ps))`: with a single postings list the set is
copied (`set_copy`); otherwise the pairwise intersections are folded left.
Python requires at least one argument, so the `[]` case is unreachable from
`get_postings`. -/
def pyIntersectList (ps : List (List ℕ)) : List ℕ :=
  match ps with
  | [] => []
  | p :: rest =>
    if rest = [] then pySetToList (pyCopy (pyFromList p))
    else pySetToList ((rest.map pyFromList).foldl pyInter2 (pyFromList p))

/-- `get_postings` from the notebook. Returns the candidate set (in its
CPython iteration order) together with the caller-visible state of the index
(the `defaultdict` lookups may insert missing query tokens). An empty query
returns before the index is touched or built. -/
def get_postings (query : String) (docs : List String) (index : Option Index) :
    List ℕ × Option Index :=
  let query_parts := pySplit query
  if query_parts = [] then ([], index)
  else
    let idx0 := match index with
      | none => build_inverted_index docs
      | some i => i
    let r := ddGetMany idx0 query_parts
    (pyIntersectList r.1, some r.2)

/-- `build_termdoc_matrix`'s zero matrix `np.zeros((nrows, ncols))`. -/
def matZero (nrows ncols : ℕ) : List (List ℤ) :=
  List.replicate nrows (List.replicate ncols 0)

/-- `m[i, j] = x` on the dense matrix (out-of-range writes cannot occur in
the translated loops; `List.set` ignores them). -/
def matSet (m : List (List ℤ)) (i j : ℕ) (x : ℤ) : List (List ℤ) :=
  m.set i ((m.getD i []).set j x)

/-- Read entry `m[i, j]`. -/
def matEntry (m : List (List ℤ)) (i j : ℕ) : ℤ := (m.getD i []).getD j 0

/-- Column `m[:, j]`. -/
def matCol (m : List (List ℤ)) (j : ℕ) : List ℤ := m.map (fun row => row.getD j 0)

/-- `build_termdoc_matrix` from the notebook. With no lexicon supplied a fresh
one is computed (`lexicon == None` is `False` for a supplied array in the
notebook's numpy era, so a supplied lexicon is simply used). Note the source
tests `if term in d` — the Python substring operator on the raw document
string — and indexes rows by `list(lexicon).index(term)` and columns by
`documents.index(d)`. -/
def build_termdoc_matrix (documents : List String) (lexicon : Option (List String)) :
    List (List ℤ) :=
  let lex := match lexicon with
    | none => build_lexicon documents
    | some l => l
  let m0 := matZero lex.length documents.length
  lex.foldl (fun m term =>
    documents.foldl (fun m d =>
      let term_idx := lex.indexOf term
      let doc_idx := documents.indexOf d
      if pyIn term d then matSet m term_idx doc_idx 1 else m) m) m0

/-- `build_vector` from the notebook: start from `np.zeros(len(lexicon))` and,
for each query token, set to 1 every position where the lexicon holds that
token (`vec[np.where(lexicon == part)] = 1`). -/
def build_vector (query : String) (lexicon : List String) : List ℤ :=
  (pySplit query).foldl (fun vec part =>
    vec.enum.map (fun p => if lexicon.getD p.1 "" = part then 1 else p.2))
    (List.replicate lexicon.length 0)

/-- Sum of pairwise products (`np.dot` on equal-length vectors). -/
def dotQ (v w : List ℤ) : ℤ := (List.zipWith (fun a b => a * b) v w).sum

/-- `np.linalg.norm`: the Euclidean norm, as a real number. -/
noncomputable def npNorm (v : List ℤ) : ℝ := Real.sqrt ((dotQ v v : ℤ) : ℝ)

/-- The value of a numpy floating-point expression: an ordinary (exact) real,
a signed infinity, or `nan`. -/
inductive NpF where
  | num (x : ℝ)
  | posInf
  | negInf
  | nan
deriving Inhabited

/-- numpy float division: `0/0` is `nan`, `x/0` for `x ≠ 0` a signed infinity
(a `RuntimeWarning` is printed, no exception is raised), otherwise the exact
quotient. -/
noncomputable def npDiv (a b : ℝ) : NpF :=
  if b = 0 then (if a = 0 then NpF.nan else if 0 < a then NpF.posInf else NpF.negInf)
  else NpF.num (a / b)

/-- `distance` from the notebook: cosine similarity
`np.dot(doc1, doc2) / (np.linalg.norm(doc1) * np.linalg.norm(doc2))`. -/
noncomputable def distance (doc1 doc2 : List ℤ) : NpF :=
  npDiv ((dotQ doc1 doc2 : ℤ) : ℝ) (npNorm doc1 * npNorm doc2)

/-- The real value of the cosine similarity (the `num` payload of `distance`
whenever neither norm is zero). Used as the sort key of `search`. -/
noncomputable def simKey (v w : List ℤ) : ℝ :=
  ((dotQ v w : ℤ) : ℝ) / (npNorm v * npNorm w)

/-- `search` from the notebook: build the query vector, retrieve the candidate
set (the notebook's `get_hits`, modelled from the spec as `get_postings`), and
stable-sort the candidate list by cosine similarity to each candidate's matrix
column, descending (`sorted(..., key=..., reverse=True)`). -/
noncomputable def search (documents : List String) (query : String)
    (lexicon : List String) (index : Index) (tdmat : List (List ℤ)) : List ℕ :=
  let vec := build_vector query lexicon
  let candidates := (get_postings query documents (some index)).1
  List.insertionSort
    (fun a b => simKey vec (matCol tdmat b) ≤ simKey vec (matCol tdmat a)) candidates

/-! ### IEEE-754 binary64 model of the numerics

`np.dot`, `np.linalg.norm` and the division in `distance` are computed by numpy
in IEEE-754 binary64 (double precision), with every elementary operation
(`*`, `/`, `sqrt`) correctly rounded to nearest, ties to even.  The model below
represents a finite double as a dyadic `m * 2 ^ e` with an integer mantissa of
at most 53 bits, and implements correct rounding directly: each operation forms
the exact (or guarded) integer result and rounds its top 53 significant bits,
using the discarded low bits (and a sticky flag for bits below those) to decide
ties.  Exponents stay well inside the binary64 range for every value that
occurs here, so overflow, underflow and subnormals need no treatment. -/

/-- Number of binary digits of `n` (fuel-based so the kernel can evaluate it;
512 bits is far more than any intermediate value here uses). -/
def bitLenAux : ℕ → ℕ → ℕ
  | 0, _ => 0
  | fuel + 1, n => if n = 0 then 0 else bitLenAux fuel (n / 2) + 1

def bitLen (n : ℕ) : ℕ := bitLenAux 512 n

/-- Integer square root by binary-digit descent from bit `k` downward. -/
def isqrtAux (n : ℕ) : ℕ → ℕ → ℕ
  | 0, r => r
  | k + 1, r =>
    isqrtAux n k (if (r + 2 ^ k) * (r + 2 ^ k) ≤ n then r + 2 ^ k else r)

/-- `isqrt n` is the floor of the square root of `n` for `n < 2 ^ 256`. -/
def isqrt (n : ℕ) : ℕ := isqrtAux n 128 0

/-- Round the integer `q` to its top 53 significant bits, to nearest with ties
to even; `sticky` records whether nonzero bits were already discarded below
`q`.  Returns `(m, s)` with value `m * 2 ^ s` and `m < 2 ^ 53`. -/
def roundSig53 (q : ℕ) (sticky : Bool) : ℕ × ℕ :=
  if bitLen q ≤ 53 then (q, 0)
  else
    let s := bitLen q - 53
    let high := q / 2 ^ s
    let low := q % 2 ^ s
    let half := 2 ^ (s - 1)
    let m :=
      if low > half ∨ (low = half ∧ (sticky = true ∨ high % 2 = 1)) then high + 1
      else high
    if bitLen m ≤ 53 then (m, s) else (m / 2, s + 1)

/-- A finite binary64 value `m * 2 ^ e` (mantissa not kept normalized; equal
values may have several representations, so statements about a computed value
name the concrete representation the computation yields). -/
structure F64 where
  m : ℤ
  e : ℤ
deriving DecidableEq

/-- The exact rational value of a binary64 datum. -/
def F64.toQ (f : F64) : ℚ := (f.m : ℚ) * 2 ^ f.e

/-- The binary64 nearest to an integer (exact below `2 ^ 53`; every dot product
here is a small integer, so conversion never rounds). -/
def f64OfInt (n : ℤ) : F64 :=
  let r := roundSig53 n.natAbs false
  ⟨if n < 0 then -(r.1 : ℤ) else (r.1 : ℤ), (r.2 : ℤ)⟩

/-- Correctly rounded binary64 multiplication: the double-width exact product,
rounded to 53 bits. -/
def flMul (a b : F64) : F64 :=
  let r := roundSig53 (a.m * b.m).natAbs false
  ⟨if a.m * b.m < 0 then -(r.1 : ℤ) else (r.1 : ℤ), a.e + b.e + (r.2 : ℤ)⟩

/-- Correctly rounded binary64 division (nonzero divisor): the numerator is
scaled by `2 ^ 160` so the integer quotient carries more than 53 significant
bits, and a nonzero remainder sets the sticky flag. -/
def flDiv (a b : F64) : F64 :=
  let num := a.m.natAbs * 2 ^ 160
  let den := b.m.natAbs
  let r := roundSig53 (num / den) (num % den != 0)
  ⟨if a.m * b.m < 0 then -(r.1 : ℤ) else (r.1 : ℤ), a.e - b.e - 160 + (r.2 : ℤ)⟩

/-- Correctly rounded binary64 square root of a nonnegative value: make the
exponent even, scale the mantissa by `2 ^ 120` so the integer root carries more
than 53 significant bits, and set the sticky flag unless the root is exact. -/
def flSqrtF (a : F64) : F64 :=
  let e2 := if a.e % 2 = 0 then a.e else a.e - 1
  let m2 := if a.e % 2 = 0 then a.m.natAbs else 2 * a.m.natAbs
  let root := isqrt (m2 * 2 ^ 120)
  let r := roundSig53 root (root * root != m2 * 2 ^ 120)
  ⟨(r.1 : ℤ), e2 / 2 - 60 + (r.2 : ℤ)⟩

/-- `distance` as numpy actually computes it, in binary64:
`np.dot(doc1, doc2) / (np.linalg.norm(doc1) * np.linalg.norm(doc2))`, each
operation correctly rounded.  (The zero-denominator case is the `nan` path of
`distance`/`npDiv`; this refinement is used where the denominator is
nonzero.) -/
def distanceF64 (doc1 doc2 : List ℤ) : F64 :=
  flDiv (f64OfInt (dotQ doc1 doc2))
    (flMul (flSqrtF (f64OfInt (dotQ doc1 doc1))) (flSqrtF (f64OfInt (dotQ doc2 doc2))))

/-- The reference corpus from the notebook. -/
def refDocs : List String :=
  ["The dog and cat ran very very fast", "The cat sat very still",
   "The gazelle ran fast", "very cat", "The lion was still",
   "very", "The dog ate the gazelle"]

/-! ### Lexicon lemmas -/

theorem addToken_foldl_mem (parts : List String) (init : List String) (t : String) :
    t ∈ parts.foldl addToken init ↔ t ∈ init ∨ t ∈ parts := by
  induction parts generalizing init with
  | nil => simp
  | cons p ps ih =>
    simp only [List.foldl_cons, ih, addToken]
    by_cases hp : p ∈ init
    · rw [if_pos hp]
      constructor
      · rintro (h | h)
        · exact Or.inl h
        · exact Or.inr (List.mem_cons_of_mem _ h)
      · rintro (h | h)
        · exact Or.inl h
        · rcases List.mem_cons.mp h with rfl | h
          · exact Or.inl hp
          · exact Or.inr h
    · rw [if_neg hp]
      simp [List.mem_append, List.mem_cons, or_assoc]

theorem accumTokens_mem (docs : List String) (t : String) :
    t ∈ accumTokens docs ↔ ∃ d ∈ docs, t ∈ pySplit d := by
  have key : ∀ (l : List String) (init : List String),
      t ∈ l.foldl (fun lex d => (pySplit d).foldl addToken lex) init ↔
        t ∈ init ∨ ∃ d ∈ l, t ∈ pySplit d := by
    intro l
    induction l with
    | nil => simp
    | cons d ds ih =>
      intro init
      simp only [List.foldl_cons, ih, addToken_foldl_mem]
      constructor
      · rintro ((h | h) | ⟨d', hd', ht⟩)
        · exact Or.inl h
        · exact Or.inr ⟨d, List.mem_cons_self d ds, h⟩
        · exact Or.inr ⟨d', List.mem_cons_of_mem _ hd', ht⟩
      · rintro (h | ⟨d', hd', ht⟩)
        · exact Or.inl (Or.inl h)
        · rcases List.mem_cons.mp hd' with rfl | h
          · exact Or.inl (Or.inr ht)
          · exact Or.inr ⟨d', h, ht⟩
  simpa [accumTokens] using key docs []

theorem addToken_nodup {lex : List String} (t : String) (h : lex.Nodup) :
    (addToken lex t).Nodup := by
  unfold addToken
  split_ifs with ht
  · exact h
  · exact List.Nodup.append h (List.nodup_singleton t) (by simpa using ht)

theorem addToken_foldl_nodup (parts : List String) {init : List String}
    (h : init.Nodup) : (parts.foldl addToken init).Nodup := by
  induction parts generalizing init with
  | nil => exact h
  | cons p ps ih => exact ih (addToken_nodup p h)

theorem accumTokens_nodup (docs : List String) : (accumTokens docs).Nodup := by
  have key : ∀ (l : List String) (init : List String), init.Nodup →
      (l.foldl (fun lex d => (pySplit d).foldl addToken lex) init).Nodup := by
    intro l
    induction l with
    | nil => exact fun _ h => h
    | cons d ds ih => exact fun init h => ih _ (addToken_foldl_nodup _ h)
  exact key docs [] List.nodup_nil

theorem build_lexicon_sorted (docs : List String) :
    (build_lexicon docs).Sorted (fun a b => a ≤ b) :=
  @List.sorted_insertionSort String (fun a b => a ≤ b) decStrLe
    inferInstance inferInstance (accumTokens docs)

theorem build_lexicon_nodup (docs : List String) : (build_lexicon docs).Nodup :=
  (@List.perm_insertionSort String (fun a b => a ≤ b) decStrLe
    (accumTokens docs)).symm.nodup (accumTokens_nodup docs)

theorem build_lexicon_mem (docs : List String) (t : String) :
    t ∈ build_lexicon docs ↔ ∃ d ∈ docs, t ∈ pySplit d := by
  rw [build_lexicon]
  rw [@List.mem_insertionSort String (fun a b => a ≤ b) decStrLe (accumTokens docs) t]
  exact accumTokens_mem docs t

/-! ### Inverted-index lemmas -/

theorem lookup_map_self (l : List String) (f : String → List ℕ) (t : String) :
    (l.map (fun x => (x, f x))).lookup t = if t ∈ l then some (f t) else none := by
  induction l with
  | nil => simp
  | cons a l ih =>
    by_cases h : t = a
    · subst h
      simp [List.lookup]
    · simp [List.lookup, beq_false_of_ne h, h, ih]

theorem mem_postingsFor (documents : List String) (term : String) (x : ℕ) :
    x ∈ postingsFor documents term ↔
      ∃ d ∈ documents, term ∈ pySplit d ∧ documents.indexOf d = x := by
  have key : ∀ (l : List String) (acc : List ℕ),
      x ∈ l.foldl (fun acc d =>
          if term ∈ pySplit d then acc ++ [documents.indexOf d] else acc) acc ↔
        x ∈ acc ∨ ∃ d ∈ l, term ∈ pySplit d ∧ documents.indexOf d = x := by
    intro l
    induction l with
    | nil => simp
    | cons d ds ih =>
      intro acc
      simp only [List.foldl_cons, ih]
      split_ifs with hd
      · constructor
        · rintro (h | ⟨d', h1, h2, h3⟩)
          · rcases List.mem_append.mp h with h | h
            · exact Or.inl h
            · exact Or.inr ⟨d, List.mem_cons_self d ds, hd, (List.mem_singleton.mp h).symm⟩
          · exact Or.inr ⟨d', List.mem_cons_of_mem _ h1, h2, h3⟩
        · rintro (h | ⟨d', h1, h2, h3⟩)
          · exact Or.inl (List.mem_append.mpr (Or.inl h))
          · rcases List.mem_cons.mp h1 with rfl | h1
            · exact Or.inl (List.mem_append.mpr (Or.inr (by simp [h3])))
            · exact Or.inr ⟨d', h1, h2, h3⟩
      · constructor
        · rintro (h | ⟨d', h1, h2, h3⟩)
          · exact Or.inl h
          · exact Or.inr ⟨d', List.mem_cons_of_mem _ h1, h2, h3⟩
        · rintro (h | ⟨d', h1, h2, h3⟩)
          · exact Or.inl h
          · rcases List.mem_cons.mp h1 with rfl | h1
            · exact absurd h2 hd
            · exact Or.inr ⟨d', h1, h2, h3⟩
  simpa [postingsFor] using key documents []

theorem ddValue_build_inverted_index (documents : List String) (t : String) :
    ddValue (build_inverted_index documents) t =
      if t ∈ build_lexicon documents then postingsFor documents t else [] := by
  rw [ddValue, build_inverted_index, lookup_map_self]
  split_ifs <;> rfl

/-- Any element of a postings list of the built index is the first position of
a document whose token list contains the term. -/
theorem mem_ddValue_built (documents : List String) (t : String) (x : ℕ)
    (h : x ∈ ddValue (build_inverted_index documents) t) :
    x < documents.length ∧ t ∈ pySplit (documents.getD x "") := by
  rw [ddValue_build_inverted_index] at h
  split_ifs at h with hlex
  · rcases (mem_postingsFor documents t x).mp h with ⟨d, hd, ht, rfl⟩
    have hlt : documents.indexOf d < documents.length := List.indexOf_lt_length.mpr hd
    refine ⟨hlt, ?_⟩
    rw [List.getD_eq_getElem documents "" hlt, List.getElem_indexOf hlt]
    exact ht
  · simp at h

/-! ### Dot-product and distance lemmas -/

theorem dotQ_eq_zero_left {v : List ℤ} (hv : ∀ x ∈ v, x = 0) (w : List ℤ) :
    dotQ v w = 0 := by
  induction v generalizing w with
  | nil => simp [dotQ]
  | cons a as ih =>
    cases w with
    | nil => simp [dotQ]
    | cons b bs =>
      have ha : a = 0 := hv a (List.mem_cons_self _ _)
      have hrest : dotQ as bs = 0 := ih (fun x hx => hv x (List.mem_cons_of_mem _ hx)) bs
      simp only [dotQ, List.zipWith_cons_cons, List.sum_cons] at hrest ⊢
      rw [ha, hrest, zero_mul, add_zero]

theorem dotQ_comm (v w : List ℤ) : dotQ v w = dotQ w v := by
  induction v generalizing w with
  | nil => cases w <;> simp [dotQ]
  | cons a as ih =>
    cases w with
    | nil => simp [dotQ]
    | cons b bs =>
      simp only [dotQ, List.zipWith_cons_cons, List.sum_cons] at ih ⊢
      rw [mul_comm, ih bs]

/-- On a zero vector, `distance` evaluates numpy's `0.0 / 0.0`, whose value is
`nan` — returned to the caller, with no exception raised. -/
theorem distance_zero_nan {v : List ℤ} (w : List ℤ) (hv : ∀ x ∈ v, x = 0) :
    distance v w = NpF.nan ∧ distance w v = NpF.nan := by
  have hvv : dotQ v v = 0 := dotQ_eq_zero_left hv v
  have hvw : dotQ v w = 0 := dotQ_eq_zero_left hv w
  have hwv : dotQ w v = 0 := (dotQ_comm w v).trans hvw
  have hnv : npNorm v = 0 := by rw [npNorm, hvv]; simp [Real.sqrt_zero]
  constructor
  · rw [distance, hvw, hnv, zero_mul]
    simp [npDiv]
  · rw [distance, hwv, hnv, mul_zero]
    simp [npDiv]

/-! ### Claim theorems (first group) -/

/-- C7: for every document collection, `build_lexicon` returns a sequence that
is lexicographically sorted and duplicate-free, contains exactly the
whitespace-delimited tokens of the documents, and maps the empty collection to
the empty lexicon. -/
theorem c7_lexicon_properties (docs : List String) :
    (build_lexicon docs).Sorted (fun a b => a ≤ b)
    ∧ (build_lexicon docs).Nodup
    ∧ (∀ t, t ∈ build_lexicon docs ↔ ∃ d ∈ docs, t ∈ pySplit d)
    ∧ build_lexicon [] = [] :=
  ⟨build_lexicon_sorted docs, build_lexicon_nodup docs, build_lexicon_mem docs, rfl⟩

/-- C9: `build_termdoc_matrix` with the precomputed lexicon supplied returns
the same matrix as the call that computes the lexicon itself; both calls are
total functions of their inputs. -/
theorem c9_optional_lexicon_equivalence (docs : List String) :
    build_termdoc_matrix docs (some (build_lexicon docs)) =
      build_termdoc_matrix docs none := rfl

/-- C1 (code bug): on `documents = ["cat x", "category"]`, lexicon entry 0 is
`"cat"`, which is not a token of document 1 (`"category"`), yet the built
matrix holds 1 at entry (0, 1), because the source tests `if term in d` — a
substring match on the raw document text — where the spec requires token
membership. -/
theorem c1_substring_bug_eval :
    (build_lexicon ["cat x", "category"]).getD 0 "" = "cat"
    ∧ "cat" ∉ pySplit "category"
    ∧ matEntry (build_termdoc_matrix ["cat x", "category"] none) 0 1 = 1 :=
  ⟨by decide, by decide, by decide⟩

/-- C2 (counterexample): in the collection `["a", "a"]` the document at
position 1 has `"a"` as a token, yet `1` is not a member of the postings of
`"a"` — `documents.index(d)` re-derives identifiers by content search, so a
repeated document text always yields the first position. -/
theorem c2_duplicate_docs_counterexample :
    "a" ∈ pySplit ((["a", "a"] : List String).getD 1 "")
    ∧ 1 ∉ ddValue (build_inverted_index ["a", "a"]) "a" := by
  constructor
  · decide
  · decide

/-- C2 (amended): for collections whose document texts are pairwise distinct,
`d ∈ index[t]` iff `t` is a token of the document at position `d`. -/
theorem c2_inverted_index_distinct_docs (docs : List String) (h : docs.Nodup)
    (t : String) (d : ℕ) :
    d ∈ ddValue (build_inverted_index docs) t ↔
      d < docs.length ∧ t ∈ pySplit (docs.getD d "") := by
  constructor
  · exact mem_ddValue_built docs t d
  · rintro ⟨hd, ht⟩
    have hmem : docs.getD d "" ∈ docs := by
      rw [List.getD_eq_getElem docs "" hd]
      exact List.getElem_mem hd
    have hlex : t ∈ build_lexicon docs := (build_lexicon_mem docs t).mpr ⟨_, hmem, ht⟩
    rw [ddValue_build_inverted_index, if_pos hlex, mem_postingsFor]
    refine ⟨docs.getD d "", hmem, ht, ?_⟩
    have hlt : docs.indexOf (docs.getD d "") < docs.length :=
      List.indexOf_lt_length.mpr hmem
    have h1 : docs.get ⟨docs.indexOf (docs.getD d ""), hlt⟩ = docs.getD d "" :=
      List.indexOf_get hlt
    have h2 : docs.get ⟨d, hd⟩ = docs.getD d "" := by
      rw [List.getD_eq_getElem docs "" hd]
      rfl
    have h3 : (⟨docs.indexOf (docs.getD d ""), hlt⟩ : Fin docs.length) = ⟨d, hd⟩ :=
      h.get_inj_iff.mp (h1.trans h2.symm)
    exact congrArg Fin.val h3

/-- C2 (witness): the amended statement at a concrete distinct-text corpus. -/
theorem c2_witness :
    1 ∈ ddValue (build_inverted_index ["a c", "b c"]) "b" :=
  (c2_inverted_index_distinct_docs ["a c", "b c"] (by decide) "b" 1).mpr
    ⟨by decide, by decide⟩

/-- C3 (counterexample): invoked on a zero vector, `distance` does not raise:
it is a total operation whose result is the floating-point value `nan`
(`0.0 / 0.0` under numpy division, which emits a warning, not an error). -/
theorem c3_zero_vector_counterexample :
    distance [(0 : ℤ)] [(1 : ℤ)] = NpF.nan :=
  (@distance_zero_nan [(0 : ℤ)] [(1 : ℤ)] (by decide)).1

/-- C3 (amended): for equal-length vectors at least one of which is zero,
`distance` returns the non-numeric float `nan` (never 0, never an ordinary
numeric similarity, and no error is raised). -/
theorem c3_zero_vector_nan (v w : List ℤ) (hlen : v.length = w.length)
    (h : (∀ x ∈ v, x = 0) ∨ (∀ x ∈ w, x = 0)) :
    distance v w = NpF.nan ∧ ∀ x : ℝ, distance v w ≠ NpF.num x := by
  have hnan : distance v w = NpF.nan := by
    rcases h with h | h
    · exact (distance_zero_nan w h).1
    · exact (distance_zero_nan v h).2
  exact ⟨hnan, fun x hx => by rw [hnan] at hx; exact NpF.noConfusion hx⟩

/-- C3 (witness): the amended statement at a concrete zero vector. -/
theorem c3_witness :
    distance [(0 : ℤ), 0] [(2 : ℤ), 3] = NpF.nan
    ∧ ∀ x : ℝ, distance [(0 : ℤ), 0] [(2 : ℤ), 3] ≠ NpF.num x :=
  c3_zero_vector_nan [0, 0] [2, 3] (by decide) (Or.inl (by decide))

/-! ### defaultdict state lemmas -/

theorem lookup_append_single (idx : Index) (k t : String) :
    (idx ++ [(k, ([] : List ℕ))]).lookup t =
      if (idx.lookup t).isSome then idx.lookup t
      else if t = k then some [] else none := by
  induction idx with
  | nil =>
    by_cases h : t = k
    · subst h
      simp [List.lookup]
    · simp [List.lookup, beq_false_of_ne h, h]
  | cons p rest ih =>
    obtain ⟨k', v⟩ := p
    by_cases h : t = k'
    · subst h
      simp [List.lookup]
    · simp only [List.cons_append, List.lookup, beq_false_of_ne h]
      exact ih

theorem ddGet_snd_lookup (idx : Index) (k t : String) :
    ((ddGet idx k).2).lookup t =
      if (idx.lookup t).isSome then idx.lookup t
      else if t = k then some [] else none := by
  cases hk : idx.lookup k with
  | some v =>
    simp only [ddGet, hk]
    by_cases ht : (idx.lookup t).isSome
    · rw [if_pos ht]
    · rw [if_neg ht]
      by_cases htk : t = k
      · subst htk
        rw [hk] at ht
        simp at ht
      · rw [if_neg htk]
        exact (Option.not_isSome_iff_eq_none.mp ht).symm ▸ rfl
  | none =>
    simp only [ddGet, hk]
    exact lookup_append_single idx k t

theorem ddGetMany_snd_lookup (ks : List String) (idx : Index) (t : String) :
    ((ddGetMany idx ks).2).lookup t =
      if (idx.lookup t).isSome then idx.lookup t
      else if t ∈ ks then some [] else none := by
  induction ks generalizing idx with
  | nil =>
    simp only [ddGetMany, List.not_mem_nil, if_false]
    by_cases ht : (idx.lookup t).isSome
    · rw [if_pos ht]
    · rw [if_neg ht]
      exact Option.not_isSome_iff_eq_none.mp ht
  | cons k rest ih =>
    simp only [ddGetMany]
    rw [ih, ddGet_snd_lookup]
    by_cases ht : (idx.lookup t).isSome
    · rw [if_pos ht, if_pos ht, if_pos ht]
    · rw [if_neg ht, if_neg ht]
      by_cases htk : t = k
      · rw [if_pos htk, if_pos (by simp [htk] : t ∈ k :: rest)]
        simp
      · rw [if_neg htk]
        simp only [Option.isSome_none, Bool.false_eq_true, if_false,
          List.mem_cons, htk, false_or]

/-! ### Claim theorems: C8 -/

/-- C8 (counterexample): querying for the out-of-vocabulary token `"b"`
inserts the key `"b"` (with empty postings) into the supplied inverted index —
a `defaultdict` subscript side effect — so the index does not map the same set
of terms afterwards. -/
theorem c8_index_mutation_counterexample :
    ((get_postings "b" ["a"] (some [("a", [0])])).2.getD []).lookup "b" = some []
    ∧ (([("a", [0])] : Index).lookup "b") = none :=
  ⟨by decide, by decide⟩

/-- C8 (amended): `get_postings` leaves the postings of every term already in
the supplied index unchanged and removes nothing, but each query token absent
from the index is inserted into it mapped to the empty postings list; the
lexicon and the term-document matrix, being separate immutable inputs, are
untouched. -/
theorem c8_index_after_query (query : String) (docs : List String)
    (idx : Index) (t : String) :
    ((get_postings query docs (some idx)).2.getD []).lookup t =
      if (idx.lookup t).isSome then idx.lookup t
      else if t ∈ pySplit query then some [] else none := by
  by_cases hq : pySplit query = []
  · simp only [get_postings, hq, if_true, eq_self_iff_true, Option.getD_some]
    simp only [List.not_mem_nil, if_false]
    by_cases ht : (idx.lookup t).isSome
    · rw [if_pos ht]
    · rw [if_neg ht]
      exact Option.not_isSome_iff_eq_none.mp ht
  · simp only [get_postings, if_neg hq, Option.getD_some]
    exact ddGetMany_snd_lookup _ idx t

/-! ### CPython set-model lemmas -/

theorem filterMap_id_replicate_none (n : ℕ) :
    (List.replicate n (none : Option ℕ)).filterMap id = [] := by
  induction n with
  | zero => rfl
  | succ n ih => simpa [List.replicate_succ] using ih

theorem pySetToList_empty (n : ℕ) : pySetToList (pyEmpty n) = [] :=
  filterMap_id_replicate_none n

/-- Invariant of every reachable table: strictly more slots than entries
(2/3-fill growth), and no duplicate entries. -/
def goodPS (s : PySet) : Prop := s.used < s.slots.length ∧ (pySetToList s).Nodup

theorem pyEmpty_used (n : ℕ) : (pyEmpty n).used = 0 := by
  simp only [PySet.used, pySetToList_empty, List.length_nil]

theorem pyEmpty_size (n : ℕ) : (pyEmpty n).slots.length = n := by
  simp [pyEmpty]

theorem goodPS_empty (n : ℕ) (h : 0 < n) : goodPS (pyEmpty n) := by
  constructor
  · rw [pyEmpty_used, pyEmpty_size]
    exact h
  · rw [pySetToList_empty]
    exact List.nodup_nil

theorem filterMap_set_none_perm {slots : List (Option ℕ)} {j : ℕ}
    (hj : j < slots.length) (hnone : slots.getD j none = none) (x : ℕ) :
    ((slots.set j (some x)).filterMap id).Perm (x :: slots.filterMap id) := by
  induction slots generalizing j with
  | nil => simp at hj
  | cons o rest ih =>
    cases j with
    | zero =>
      have ho : o = none := by simpa using hnone
      subst ho
      simp
    | succ j =>
      have hj' : j < rest.length := Nat.lt_of_succ_lt_succ hj
      have hnone' : rest.getD j none = none := by simpa using hnone
      cases o with
      | none => simpa using ih hj' hnone'
      | some a => simpa using ((ih hj' hnone').cons a).trans (List.Perm.swap x a _)

theorem probeEmpty_spec (slots : List (Option ℕ)) (h0 : 0 < slots.length) :
    ∀ fuel i perturb j, probeEmpty slots fuel i perturb = some j →
      j < slots.length ∧ slots.getD j none = none := by
  intro fuel
  induction fuel with
  | zero =>
    intro i perturb j h
    exact absurd h (by simp [probeEmpty])
  | succ f ih =>
    intro i perturb j h
    rw [probeEmpty] at h
    split_ifs at h with hs
    · obtain rfl := Option.some.inj h
      exact ⟨Nat.mod_lt _ h0, hs⟩
    · exact ih _ _ j h

theorem firstNoneIdx_spec : ∀ (slots : List (Option ℕ)) (j : ℕ),
    firstNoneIdx slots = some j → j < slots.length ∧ slots.getD j none = none := by
  intro slots
  induction slots with
  | nil =>
    intro j h
    exact absurd h (by simp [firstNoneIdx])
  | cons o rest ih =>
    intro j h
    cases o with
    | none =>
      obtain rfl := Option.some.inj h
      exact ⟨Nat.succ_pos _, rfl⟩
    | some a =>
      rw [firstNoneIdx] at h
      rcases Option.map_eq_some'.mp h with ⟨j', hj', rfl⟩
      obtain ⟨h1, h2⟩ := ih j' hj'
      exact ⟨Nat.succ_lt_succ h1, by simpa using h2⟩

theorem firstNoneIdx_isSome {slots : List (Option ℕ)}
    (h : (slots.filterMap id).length < slots.length) : (firstNoneIdx slots).isSome := by
  induction slots with
  | nil => simp at h
  | cons o rest ih =>
    cases o with
    | none => simp [firstNoneIdx]
    | some a =>
      have h' : (rest.filterMap id).length < rest.length := by
        simpa using h
      rw [firstNoneIdx]
      cases hf : firstNoneIdx rest with
      | some j => simp
      | none =>
        have := ih h'
        rw [hf] at this
        simp at this

theorem pyPlace_perm {s : PySet} (x : ℕ) (h : s.used < s.slots.length) :
    (pySetToList (pyPlace s x)).Perm (x :: pySetToList s)
    ∧ (pyPlace s x).slots.length = s.slots.length := by
  have h0 : 0 < s.slots.length := Nat.lt_of_le_of_lt (Nat.zero_le _) h
  cases hp : probeEmpty s.slots (x + 2 * s.slots.length + 64) (x % s.slots.length) x with
  | some j =>
    obtain ⟨hj, hnone⟩ := probeEmpty_spec s.slots h0 _ _ _ j hp
    simp only [pyPlace, hp]
    exact ⟨filterMap_set_none_perm hj hnone x, by simp⟩
  | none =>
    cases hf : firstNoneIdx s.slots with
    | some j =>
      obtain ⟨hj, hnone⟩ := firstNoneIdx_spec s.slots j hf
      simp only [pyPlace, hp, hf]
      exact ⟨filterMap_set_none_perm hj hnone x, by simp⟩
    | none =>
      exfalso
      have hs := @firstNoneIdx_isSome s.slots h
      rw [hf] at hs
      simp at hs

theorem pyPlace_used {s : PySet} (x : ℕ) (h : s.used < s.slots.length) :
    (pyPlace s x).used = s.used + 1 := by
  have := (pyPlace_perm x h).1.length_eq
  simpa [PySet.used] using this

theorem foldl_pyPlace_spec (l : List ℕ) :
    ∀ (s0 : PySet), s0.used + l.length < s0.slots.length →
      (pySetToList (l.foldl pyPlace s0)).Perm (l ++ pySetToList s0)
      ∧ (l.foldl pyPlace s0).slots.length = s0.slots.length := by
  induction l with
  | nil =>
    intro s0 _
    exact ⟨by simp, rfl⟩
  | cons x t ih =>
    intro s0 h
    have hx : s0.used < s0.slots.length := by
      simp only [List.length_cons] at h
      omega
    have hperm := (pyPlace_perm x hx).1
    have hlen := (pyPlace_perm x hx).2
    have husd := pyPlace_used x hx
    have hrec := ih (pyPlace s0 x) (by
      rw [husd, hlen]
      simp only [List.length_cons] at h
      omega)
    refine ⟨?_, by rw [List.foldl_cons, hrec.2, hlen]⟩
    rw [List.foldl_cons]
    have step : (pySetToList (t.foldl pyPlace (pyPlace s0 x))).Perm
        (t ++ (x :: pySetToList s0)) :=
      hrec.1.trans (List.Perm.append_left t hperm)
    exact step.trans List.perm_middle

theorem pyResize_spec (s : PySet) (n : ℕ) (h : s.used < n) :
    (pySetToList (pyResize s n)).Perm (pySetToList s)
    ∧ (pyResize s n).slots.length = n := by
  have h0 : (pyEmpty n).used + (pySetToList s).length < (pyEmpty n).slots.length := by
    rw [pyEmpty_used, pyEmpty_size, Nat.zero_add]
    exact h
  obtain ⟨hp, hl⟩ := foldl_pyPlace_spec (pySetToList s) (pyEmpty n) h0
  refine ⟨hp.trans ?_, by simp only [pyResize]; rw [hl, pyEmpty_size]⟩
  rw [pySetToList_empty]
  simp

theorem growLoop_gt : ∀ (f cur m : ℕ), 1 ≤ cur → m < 2 ^ f * cur → m < growLoop f cur m := by
  intro f
  induction f with
  | zero =>
    intro cur m h1 h2
    simpa [growLoop] using h2
  | succ f ih =>
    intro cur m h1 h2
    rw [growLoop]
    split_ifs with hc
    · refine ih (cur * 2) m (by omega) ?_
      rw [pow_succ] at h2
      calc m < 2 ^ f * 2 * cur := h2
      _ = 2 ^ f * (cur * 2) := by ring
    · omega

theorem resizeTarget_gt (m : ℕ) : m < resizeTarget m := by
  refine growLoop_gt (m + 8) 8 m (by norm_num) ?_
  calc m < 2 ^ m := Nat.lt_two_pow m
  _ ≤ 2 ^ (m + 8) := Nat.pow_le_pow_right (by norm_num) (by omega)
  _ ≤ 2 ^ (m + 8) * 8 := Nat.le_mul_of_pos_right _ (by norm_num)

theorem pyResize_good {s : PySet} (n : ℕ) (h : s.used < n)
    (hnd : (pySetToList s).Nodup) :
    goodPS (pyResize s n) ∧ ∀ y, y ∈ pySetToList (pyResize s n) ↔ y ∈ pySetToList s := by
  obtain ⟨hp, hl⟩ := pyResize_spec s n h
  refine ⟨⟨?_, hp.symm.nodup hnd⟩, fun y => hp.mem_iff⟩
  have husd : (pyResize s n).used = s.used := by
    simpa [PySet.used] using hp.length_eq
  rw [husd, hl]
  exact h

theorem pyAdd_spec {s : PySet} (x : ℕ) (h : goodPS s) :
    goodPS (pyAdd s x)
    ∧ ∀ y, y ∈ pySetToList (pyAdd s x) ↔ y = x ∨ y ∈ pySetToList s := by
  obtain ⟨hlt, hnd⟩ := h
  by_cases hmem : x ∈ pySetToList s
  · rw [pyAdd, if_pos hmem]
    exact ⟨⟨hlt, hnd⟩, fun y => ⟨Or.inr, fun hy => hy.elim (fun e => e ▸ hmem) id⟩⟩
  · have hperm := (pyPlace_perm x hlt).1
    have hlen := (pyPlace_perm x hlt).2
    have hnd' : (pySetToList (pyPlace s x)).Nodup :=
      hperm.symm.nodup (List.nodup_cons.mpr ⟨hmem, hnd⟩)
    have hmem' : ∀ y, y ∈ pySetToList (pyPlace s x) ↔ y = x ∨ y ∈ pySetToList s := by
      intro y
      rw [hperm.mem_iff, List.mem_cons]
    by_cases hgrow : 3 * (pyPlace s x).used ≥ 2 * (pyPlace s x).slots.length
    · rw [pyAdd, if_neg hmem, if_pos hgrow]
      have htarget : (pyPlace s x).used <
          resizeTarget (if (pyPlace s x).used > 50000 then (pyPlace s x).used * 2
            else (pyPlace s x).used * 4) := by
        have hgt := resizeTarget_gt (if (pyPlace s x).used > 50000
          then (pyPlace s x).used * 2 else (pyPlace s x).used * 4)
        split_ifs at hgt ⊢ <;> omega
      obtain ⟨hg2, hm2⟩ := pyResize_good _ htarget hnd'
      exact ⟨hg2, fun y => (hm2 y).trans (hmem' y)⟩
    · rw [pyAdd, if_neg hmem, if_neg hgrow]
      refine ⟨⟨?_, hnd'⟩, hmem'⟩
      have hl0 : 0 < (pyPlace s x).slots.length := by
        rw [hlen]
        omega
      omega

theorem foldl_pyAdd_spec (l : List ℕ) :
    ∀ (s0 : PySet), goodPS s0 →
      goodPS (l.foldl pyAdd s0)
      ∧ ∀ y, y ∈ pySetToList (l.foldl pyAdd s0) ↔ y ∈ l ∨ y ∈ pySetToList s0 := by
  induction l with
  | nil =>
    intro s0 h
    exact ⟨h, by simp⟩
  | cons x t ih =>
    intro s0 h
    obtain ⟨hg, hm⟩ := pyAdd_spec x h
    obtain ⟨hg2, hm2⟩ := ih (pyAdd s0 x) hg
    refine ⟨hg2, fun y => ?_⟩
    rw [List.foldl_cons, hm2 y, hm y, List.mem_cons]
    tauto

theorem foldl_pyAdd_from_base {base : PySet} (l : List ℕ) (hg : goodPS base)
    (he : pySetToList base = []) :
    goodPS (l.foldl pyAdd base) ∧ ∀ y, y ∈ pySetToList (l.foldl pyAdd base) ↔ y ∈ l := by
  obtain ⟨hg2, hm⟩ := foldl_pyAdd_spec l base hg
  refine ⟨hg2, fun y => ?_⟩
  rw [hm y, he]
  simp

theorem pyFromList_spec (l : List ℕ) :
    goodPS (pyFromList l) ∧ ∀ y, y ∈ pySetToList (pyFromList l) ↔ y ∈ l := by
  simp only [pyFromList]
  exact foldl_pyAdd_from_base l (goodPS_empty 8 (by norm_num)) (pySetToList_empty 8)

theorem pyCopy_spec (s : PySet) :
    goodPS (pyCopy s) ∧ ∀ y, y ∈ pySetToList (pyCopy s) ↔ y ∈ pySetToList s := by
  simp only [pyCopy]
  split_ifs with hc
  · have h1 : (pyEmpty 8).used < resizeTarget (((pyEmpty 8).used + s.used) * 4) := by
      have := resizeTarget_gt (((pyEmpty 8).used + s.used) * 4)
      omega
    have he : pySetToList (pyResize (pyEmpty 8)
        (resizeTarget (((pyEmpty 8).used + s.used) * 4))) = [] := by
      have hp := (pyResize_spec (pyEmpty 8) _ h1).1
      rw [pySetToList_empty] at hp
      exact hp.eq_nil
    exact foldl_pyAdd_from_base (pySetToList s)
      (pyResize_good _ h1 (goodPS_empty 8 (by norm_num)).2).1 he
  · exact foldl_pyAdd_from_base (pySetToList s) (goodPS_empty 8 (by norm_num))
      (pySetToList_empty 8)

theorem pyInter2_spec (so other : PySet) :
    goodPS (pyInter2 so other)
    ∧ ∀ y, y ∈ pySetToList (pyInter2 so other) ↔
        y ∈ pySetToList so ∧ y ∈ pySetToList other := by
  by_cases hc : other.used > so.used
  · simp only [pyInter2, if_pos hc]
    obtain ⟨hg, hm⟩ := foldl_pyAdd_from_base
      ((pySetToList so).filter fun x => (pySetToList other).contains x)
      (goodPS_empty 8 (by norm_num)) (pySetToList_empty 8)
    refine ⟨hg, fun y => ?_⟩
    rw [hm y]
    simp only [List.mem_filter]
    simp [List.elem_iff]
  · simp only [pyInter2, if_neg hc]
    obtain ⟨hg, hm⟩ := foldl_pyAdd_from_base
      ((pySetToList other).filter fun x => (pySetToList so).contains x)
      (goodPS_empty 8 (by norm_num)) (pySetToList_empty 8)
    refine ⟨hg, fun y => ?_⟩
    rw [hm y]
    simp only [List.mem_filter]
    constructor
    · rintro ⟨h1, h2⟩
      exact ⟨by simpa [List.elem_iff] using h2, h1⟩
    · rintro ⟨h1, h2⟩
      exact ⟨h2, by simpa [List.elem_iff] using h1⟩

theorem foldl_pyInter2_spec (sets : List PySet) :
    ∀ (s0 : PySet), goodPS s0 →
      goodPS (sets.foldl pyInter2 s0)
      ∧ ∀ y, y ∈ pySetToList (sets.foldl pyInter2 s0) ↔
          y ∈ pySetToList s0 ∧ ∀ s ∈ sets, y ∈ pySetToList s := by
  induction sets with
  | nil =>
    intro s0 h
    exact ⟨h, by simp⟩
  | cons s ss ih =>
    intro s0 h
    obtain ⟨hg, hm⟩ := pyInter2_spec s0 s
    obtain ⟨hg2, hm2⟩ := ih (pyInter2 s0 s) hg
    refine ⟨hg2, fun y => ?_⟩
    rw [List.foldl_cons, hm2 y, hm y]
    constructor
    · rintro ⟨⟨h1, h2⟩, h3⟩
      refine ⟨h1, ?_⟩
      rintro w hw
      rcases List.mem_cons.mp hw with rfl | hw
      · exact h2
      · exact h3 w hw
    · rintro ⟨h1, h2⟩
      exact ⟨⟨h1, h2 s (List.mem_cons_self _ _)⟩,
        fun w hw => h2 w (List.mem_cons_of_mem _ hw)⟩

theorem pyIntersectList_nodup (ps : List (List ℕ)) : (pyIntersectList ps).Nodup := by
  match ps with
  | [] => simp [pyIntersectList]
  | p :: rest =>
    rw [pyIntersectList]
    split_ifs with hr
    · exact (pyCopy_spec (pyFromList p)).1.2
    · exact (foldl_pyInter2_spec (rest.map pyFromList) (pyFromList p)
        (pyFromList_spec p).1).1.2

theorem pyIntersectList_mem (p : List ℕ) (rest : List (List ℕ)) (x : ℕ) :
    x ∈ pyIntersectList (p :: rest) ↔ x ∈ p ∧ ∀ v ∈ rest, x ∈ v := by
  rw [pyIntersectList]
  split_ifs with hr
  · subst hr
    rw [(pyCopy_spec (pyFromList p)).2 x, (pyFromList_spec p).2 x]
    simp
  · rw [(foldl_pyInter2_spec (rest.map pyFromList) (pyFromList p)
      (pyFromList_spec p).1).2 x, (pyFromList_spec p).2 x]
    constructor
    · rintro ⟨h1, h2⟩
      refine ⟨h1, fun v hv => ?_⟩
      exact ((pyFromList_spec v).2 x).mp (h2 (pyFromList v) (List.mem_map_of_mem _ hv))
    · rintro ⟨h1, h2⟩
      refine ⟨h1, fun s hs => ?_⟩
      rcases List.mem_map.mp hs with ⟨v, hv, rfl⟩
      exact ((pyFromList_spec v).2 x).mpr (h2 v hv)

theorem get_postings_fst_nodup (query : String) (docs : List String)
    (oidx : Option Index) : ((get_postings query docs oidx).1).Nodup := by
  by_cases hq : pySplit query = []
  · simp [get_postings, hq]
  · simp only [get_postings, if_neg hq]
    exact pyIntersectList_nodup _

theorem ddGet_fst (idx : Index) (k : String) : (ddGet idx k).1 = ddValue idx k := by
  cases hk : idx.lookup k with
  | some v => simp [ddGet, ddValue, hk]
  | none => simp [ddGet, ddValue, hk]

theorem ddGet_snd_ddValue (idx : Index) (k t : String) :
    ddValue (ddGet idx k).2 t = ddValue idx t := by
  rw [ddValue, ddGet_snd_lookup]
  by_cases ht : (idx.lookup t).isSome
  · rw [if_pos ht, ddValue]
  · rw [if_neg ht, ddValue, Option.not_isSome_iff_eq_none.mp ht]
    by_cases htk : t = k
    · rw [if_pos htk]
      rfl
    · rw [if_neg htk]

theorem ddGetMany_fst (ks : List String) (idx : Index) :
    (ddGetMany idx ks).1 = ks.map (ddValue idx) := by
  induction ks generalizing idx with
  | nil => rfl
  | cons k rest ih =>
    simp only [ddGetMany, List.map_cons]
    rw [ddGet_fst, ih]
    rw [show ddValue (ddGet idx k).2 = ddValue idx from
      funext fun t => ddGet_snd_ddValue idx k t]

theorem get_postings_fst_mem (query : String) (docs : List String) (idx : Index)
    (x : ℕ) :
    x ∈ (get_postings query docs (some idx)).1 ↔
      (pySplit query ≠ [] ∧ ∀ t ∈ pySplit query, x ∈ ddValue idx t) := by
  by_cases hq : pySplit query = []
  · simp [get_postings, hq]
  · simp only [get_postings, if_neg hq]
    rw [ddGetMany_fst]
    obtain ⟨t0, ts, hp⟩ : ∃ t0 ts, pySplit query = t0 :: ts := by
      cases hps : pySplit query with
      | nil => exact absurd hps hq
      | cons t0 ts => exact ⟨t0, ts, rfl⟩
    rw [hp, List.map_cons, pyIntersectList_mem]
    constructor
    · rintro ⟨h0, hrest⟩
      refine ⟨List.cons_ne_nil t0 ts, ?_⟩
      intro t ht
      rcases List.mem_cons.mp ht with rfl | ht
      · exact h0
      · exact hrest _ (List.mem_map_of_mem _ ht)
    · rintro ⟨-, hall⟩
      refine ⟨hall t0 (List.mem_cons_self _ _), ?_⟩
      rintro v hv
      rcases List.mem_map.mp hv with ⟨t, ht, rfl⟩
      exact hall t (List.mem_cons_of_mem _ ht)

/-! ### Claim theorems: C6 -/

/-- C6: the candidate set of `get_postings` is empty for a token-free query
and otherwise is the intersection over all query tokens of that token's
postings set, an absent token contributing the empty set (so an
out-of-vocabulary token empties the result, with no error — `get_postings` is
total); consequently `search` returns only identifiers of documents
containing every query token. -/
theorem c6_candidate_intersection (docs : List String) (query : String) :
    ((pySplit query = []) →
      (get_postings query docs (some (build_inverted_index docs))).1 = [])
    ∧ (∀ x, x ∈ (get_postings query docs (some (build_inverted_index docs))).1 ↔
        (pySplit query ≠ [] ∧ ∀ t ∈ pySplit query,
          x ∈ ddValue (build_inverted_index docs) t))
    ∧ ((∃ t ∈ pySplit query, (build_inverted_index docs).lookup t = none) →
      (get_postings query docs (some (build_inverted_index docs))).1 = [])
    ∧ (∀ lexicon tdmat,
        ∀ c ∈ search docs query lexicon (build_inverted_index docs) tdmat,
        ∀ t ∈ pySplit query, t ∈ pySplit (docs.getD c "")) := by
  refine ⟨fun hq => by simp [get_postings, hq], fun x => get_postings_fst_mem query docs _ x,
    ?_, ?_⟩
  · rintro ⟨t, ht, hnone⟩
    rw [List.eq_nil_iff_forall_not_mem]
    intro x hx
    have hmem := ((get_postings_fst_mem query docs _ x).mp hx).2 t ht
    rw [ddValue, hnone] at hmem
    simp at hmem
  · intro lexicon tdmat c hc t ht
    have hcand : c ∈ (get_postings query docs (some (build_inverted_index docs))).1 := by
      rw [search] at hc
      exact (List.mem_insertionSort _).mp hc
    have hmem := ((get_postings_fst_mem query docs _ c).mp hcand).2 t ht
    exact (mem_ddValue_built docs t c hmem).2

/-- C6 (witness): a query made of a single out-of-vocabulary token yields the
empty candidate set. -/
theorem c6_witness :
    (get_postings "dog" ["cat"] (some (build_inverted_index ["cat"]))).1 = [] :=
  (c6_candidate_intersection ["cat"] "dog").2.2.1 ⟨"dog", by decide, by decide⟩

/-! ### Claim theorems: C10 -/

/-- C10: the list returned by `search` has no duplicate identifiers and its
members are exactly the members of the candidate set, for every collection,
query, index and matrix — in particular also when the collection repeats a
document text and the raw postings lists hold repeated identifiers (the
`set()` conversions inside `get_postings` deduplicate them). -/
theorem c10_results_exactly_candidates (docs : List String) (query : String)
    (lexicon : List String) (idx : Index) (tdmat : List (List ℤ)) :
    (search docs query lexicon idx tdmat).Nodup
    ∧ ∀ x, x ∈ search docs query lexicon idx tdmat ↔
        x ∈ (get_postings query docs (some idx)).1 := by
  simp only [search]
  constructor
  · exact (List.perm_insertionSort _ _).symm.nodup
      (get_postings_fst_nodup query docs (some idx))
  · intro x
    exact List.mem_insertionSort _

/-! ### Stable descending sort lemmas (for C5) -/

theorem orderedInsert_desc_pairwise (k : ℕ → ℝ) (a : ℕ) (s : List ℕ)
    (hs : s.Pairwise (fun x y => k y ≤ k x ∧ (k x = k y → x < y)))
    (ha : ∀ b ∈ s, a < b) :
    (List.orderedInsert (fun x y => k y ≤ k x) a s).Pairwise
      (fun x y => k y ≤ k x ∧ (k x = k y → x < y)) := by
  induction s with
  | nil => simp
  | cons b t ih =>
    by_cases hab : k b ≤ k a
    · rw [List.orderedInsert, if_pos hab]
      refine List.Pairwise.cons ?_ hs
      intro c hc
      rcases List.mem_cons.mp hc with rfl | hc
      · exact ⟨hab, fun _ => ha c (List.mem_cons_self _ _)⟩
      · have hbc := (List.pairwise_cons.mp hs).1 c hc
        exact ⟨le_trans hbc.1 hab, fun _ => ha c (List.mem_cons_of_mem _ hc)⟩
    · rw [List.orderedInsert, if_neg hab]
      have hlt : k a < k b := not_le.mp hab
      refine List.Pairwise.cons ?_ (ih (List.pairwise_cons.mp hs).2
        (fun c hc => ha c (List.mem_cons_of_mem _ hc)))
      intro c hc
      rcases (List.mem_orderedInsert _).mp hc with rfl | hc
      · exact ⟨le_of_lt hlt, fun he => absurd (le_of_eq he) (not_le.mpr hlt)⟩
      · exact (List.pairwise_cons.mp hs).1 c hc

theorem insertionSort_desc_pairwise (k : ℕ → ℝ) (l : List ℕ)
    (hl : l.Pairwise (fun x y => x < y)) :
    (List.insertionSort (fun x y => k y ≤ k x) l).Pairwise
      (fun x y => k y ≤ k x ∧ (k x = k y → x < y)) := by
  induction l with
  | nil => simp
  | cons a t ih =>
    rw [List.insertionSort]
    refine orderedInsert_desc_pairwise k a _ (ih (List.pairwise_cons.mp hl).2) ?_
    intro b hb
    exact (List.pairwise_cons.mp hl).1 b ((List.mem_insertionSort _).mp hb)

theorem insertionSort_desc_sorted (k : ℕ → ℝ) (l : List ℕ) :
    (List.insertionSort (fun a b => k b ≤ k a) l).Pairwise (fun a b => k b ≤ k a) := by
  haveI ht : IsTotal ℕ (fun a b => k b ≤ k a) := ⟨fun a b => le_total (k b) (k a)⟩
  haveI htr : IsTrans ℕ (fun a b => k b ≤ k a) := ⟨fun _ _ _ h1 h2 => le_trans h2 h1⟩
  exact List.sorted_insertionSort _ l

/-! ### Claim theorems: C5 -/

/-- The corpus exhibiting the hash-order tie-break failure: the only documents
containing both query tokens sit at positions 7 and 8, whose table slots are
`7 mod 8 = 7` and `8 mod 8 = 0`, so the candidate set iterates as `[8, 7]`. -/
def c5Docs : List String :=
  ["f0", "f1", "f2", "f3", "f4", "f5", "f6", "q r", "r q"]

/-- C5 (counterexample): documents 7 (`"q r"`) and 8 (`"r q"`) have identical
matrix columns, hence exactly equal cosine similarity to the query
`"q r"`, yet `search` returns `[8, 7]` — the larger identifier first —
because the CPython candidate set `{7, 8}` iterates in slot order `[8, 7]`
and the stable sort keeps that order on the exact tie. -/
theorem c5_tie_counterexample :
    simKey (build_vector "q r" (build_lexicon c5Docs))
        (matCol (build_termdoc_matrix c5Docs none) 7)
      = simKey (build_vector "q r" (build_lexicon c5Docs))
          (matCol (build_termdoc_matrix c5Docs none) 8)
    ∧ search c5Docs "q r" (build_lexicon c5Docs) (build_inverted_index c5Docs)
        (build_termdoc_matrix c5Docs none) = [8, 7] := by
  have hcol : matCol (build_termdoc_matrix c5Docs none) 7
      = matCol (build_termdoc_matrix c5Docs none) 8 := by decide
  have hcand : (get_postings "q r" c5Docs (some (build_inverted_index c5Docs))).1
      = [8, 7] := by decide
  have hk : simKey (build_vector "q r" (build_lexicon c5Docs))
      (matCol (build_termdoc_matrix c5Docs none) 7)
      = simKey (build_vector "q r" (build_lexicon c5Docs))
        (matCol (build_termdoc_matrix c5Docs none) 8) := by rw [hcol]
  refine ⟨hk, ?_⟩
  simp only [search]
  rw [hcand]
  simp only [List.insertionSort, List.orderedInsert]
  rw [if_pos (le_of_eq hk)]

/-- C5 (amended): for structures built from the collection, the list returned
by `search` is always ordered by non-increasing cosine similarity between the
query vector and each result's matrix column; the ascending-identifier order
on exact ties additionally holds whenever the candidate set iterates in
ascending identifier order (true e.g. for identifiers below the table size,
but not in general — iteration follows hash slots). -/
theorem c5_ranking_order (docs : List String) (query : String)
    (lexicon : List String) (idx : Index) (tdmat : List (List ℤ))
    (hlex : lexicon = build_lexicon docs)
    (hidx : idx = build_inverted_index docs)
    (hmat : tdmat = build_termdoc_matrix docs none) :
    (search docs query lexicon idx tdmat).Pairwise (fun a b =>
      simKey (build_vector query lexicon) (matCol tdmat b)
        ≤ simKey (build_vector query lexicon) (matCol tdmat a))
    ∧ (((get_postings query docs (some idx)).1).Pairwise (fun a b => a < b) →
      (search docs query lexicon idx tdmat).Pairwise (fun a b =>
        simKey (build_vector query lexicon) (matCol tdmat b)
          ≤ simKey (build_vector query lexicon) (matCol tdmat a)
        ∧ (simKey (build_vector query lexicon) (matCol tdmat a)
            = simKey (build_vector query lexicon) (matCol tdmat b) → a < b))) := by
  constructor
  · simp only [search]
    exact insertionSort_desc_sorted
      (fun c => simKey (build_vector query lexicon) (matCol tdmat c)) _
  · intro hasc
    simp only [search]
    exact insertionSort_desc_pairwise
      (fun c => simKey (build_vector query lexicon) (matCol tdmat c)) _ hasc

/-- C5 (witness): at the reference corpus and the notebook's demo query the
candidate set iterates ascending, so the full tie-break order holds there. -/
theorem c5_witness :
    (search refDocs "cat very" (build_lexicon refDocs) (build_inverted_index refDocs)
        (build_termdoc_matrix refDocs none)).Pairwise (fun a b =>
      simKey (build_vector "cat very" (build_lexicon refDocs))
          (matCol (build_termdoc_matrix refDocs none) b)
        ≤ simKey (build_vector "cat very" (build_lexicon refDocs))
            (matCol (build_termdoc_matrix refDocs none) a)
      ∧ (simKey (build_vector "cat very" (build_lexicon refDocs))
            (matCol (build_termdoc_matrix refDocs none) a)
          = simKey (build_vector "cat very" (build_lexicon refDocs))
              (matCol (build_termdoc_matrix refDocs none) b) → a < b)) :=
  (c5_ranking_order refDocs "cat very" _ _ _ rfl rfl rfl).2 (by decide)

/-! ### Claim theorems: C4 -/

set_option maxRecDepth 8000 in
/-- C4 (counterexample to the original claim): the similarity the program
computes between the query vector of `"cat very"` and document 3's matrix
column is not 1.  numpy evaluates `2.0 / (sqrt(2.0) * sqrt(2.0))` in binary64:
`sqrt(2.0) * sqrt(2.0)` rounds to `2.0000000000000004` (= 2 + 2⁻⁵¹), and the
division rounds to `0.9999999999999998` (= 9007199254740990 · 2⁻⁵³), strictly
below 1; Python 2's `str` prints it as `"1.0"` in the notebook's output. -/
theorem c4_similarity_not_one_float64 :
    distanceF64 (build_vector "cat very" (build_lexicon refDocs))
        (matCol (build_termdoc_matrix refDocs none) 3) = ⟨9007199254740990, -53⟩
    ∧ F64.toQ (distanceF64 (build_vector "cat very" (build_lexicon refDocs))
        (matCol (build_termdoc_matrix refDocs none) 3)) ≠ 1 := by
  have hval : distanceF64 (build_vector "cat very" (build_lexicon refDocs))
      (matCol (build_termdoc_matrix refDocs none) 3) = ⟨9007199254740990, -53⟩ := by
    decide
  refine ⟨hval, ?_⟩
  rw [hval, F64.toQ]
  norm_num

set_option maxRecDepth 8000 in
/-- C4 (amended): on the reference corpus, the query `"cat very"` has candidate
set `{0, 1, 3}` and `search` returns exactly `[3, 1, 0]`; the cosine similarity
between the query vector and document 3's matrix column is 1 only in exact real
arithmetic — in the binary64 arithmetic the program runs it is
`9007199254740990 · 2⁻⁵³ = 0.9999999999999998`, strictly less than 1 (printed
as `1.0` by Python 2's 12-digit `str` rounding). -/
theorem c4_reference_scenario :
    (get_postings "cat very" refDocs (some (build_inverted_index refDocs))).1 = [0, 1, 3]
    ∧ search refDocs "cat very" (build_lexicon refDocs) (build_inverted_index refDocs)
        (build_termdoc_matrix refDocs none) = [3, 1, 0]
    ∧ distanceF64 (build_vector "cat very" (build_lexicon refDocs))
        (matCol (build_termdoc_matrix refDocs none) 3) = ⟨9007199254740990, -53⟩
    ∧ F64.toQ (distanceF64 (build_vector "cat very" (build_lexicon refDocs))
        (matCol (build_termdoc_matrix refDocs none) 3)) < 1 := by
  have hcand : (get_postings "cat very" refDocs
      (some (build_inverted_index refDocs))).1 = [0, 1, 3] := by decide
  have dvv : dotQ (build_vector "cat very" (build_lexicon refDocs))
      (build_vector "cat very" (build_lexicon refDocs)) = 2 := by decide
  have dv3 : dotQ (build_vector "cat very" (build_lexicon refDocs))
      (matCol (build_termdoc_matrix refDocs none) 3) = 2 := by decide
  have d33 : dotQ (matCol (build_termdoc_matrix refDocs none) 3)
      (matCol (build_termdoc_matrix refDocs none) 3) = 2 := by decide
  have dv1 : dotQ (build_vector "cat very" (build_lexicon refDocs))
      (matCol (build_termdoc_matrix refDocs none) 1) = 2 := by decide
  have d11 : dotQ (matCol (build_termdoc_matrix refDocs none) 1)
      (matCol (build_termdoc_matrix refDocs none) 1) = 5 := by decide
  have dv0 : dotQ (build_vector "cat very" (build_lexicon refDocs))
      (matCol (build_termdoc_matrix refDocs none) 0) = 2 := by decide
  have d00 : dotQ (matCol (build_termdoc_matrix refDocs none) 0)
      (matCol (build_termdoc_matrix refDocs none) 0) = 7 := by decide
  have k3 : simKey (build_vector "cat very" (build_lexicon refDocs))
      (matCol (build_termdoc_matrix refDocs none) 3) = 1 := by
    rw [simKey]
    simp only [npNorm]
    rw [dv3, dvv, d33]
    push_cast
    rw [Real.mul_self_sqrt (by norm_num : (0 : ℝ) ≤ 2)]
    norm_num
  have k1 : simKey (build_vector "cat very" (build_lexicon refDocs))
      (matCol (build_termdoc_matrix refDocs none) 1) = 2 / Real.sqrt 10 := by
    rw [simKey]
    simp only [npNorm]
    rw [dv1, dvv, d11]
    push_cast
    rw [← Real.sqrt_mul (by norm_num : (0 : ℝ) ≤ 2)]
    norm_num
  have k0 : simKey (build_vector "cat very" (build_lexicon refDocs))
      (matCol (build_termdoc_matrix refDocs none) 0) = 2 / Real.sqrt 14 := by
    rw [simKey]
    simp only [npNorm]
    rw [dv0, dvv, d00]
    push_cast
    rw [← Real.sqrt_mul (by norm_num : (0 : ℝ) ≤ 2)]
    norm_num
  have hpos10 : (0 : ℝ) < Real.sqrt 10 := Real.sqrt_pos.mpr (by norm_num)
  have hpos14 : (0 : ℝ) < Real.sqrt 14 := Real.sqrt_pos.mpr (by norm_num)
  have hA : ¬ ((1 : ℝ) ≤ 2 / Real.sqrt 10) := by
    rw [not_le, div_lt_one hpos10, Real.lt_sqrt (by norm_num)]
    norm_num
  have hB : ¬ ((1 : ℝ) ≤ 2 / Real.sqrt 14) := by
    rw [not_le, div_lt_one hpos14, Real.lt_sqrt (by norm_num)]
    norm_num
  have hC : ¬ ((2 : ℝ) / Real.sqrt 10 ≤ 2 / Real.sqrt 14) := by
    rw [not_le]
    exact div_lt_div_of_pos_left (by norm_num) hpos10
      (Real.sqrt_lt_sqrt (by norm_num) (by norm_num))
  have hn13 : ¬ (simKey (build_vector "cat very" (build_lexicon refDocs))
      (matCol (build_termdoc_matrix refDocs none) 3)
        ≤ simKey (build_vector "cat very" (build_lexicon refDocs))
          (matCol (build_termdoc_matrix refDocs none) 1)) := by
    rw [k3, k1]
    exact hA
  have hn03 : ¬ (simKey (build_vector "cat very" (build_lexicon refDocs))
      (matCol (build_termdoc_matrix refDocs none) 3)
        ≤ simKey (build_vector "cat very" (build_lexicon refDocs))
          (matCol (build_termdoc_matrix refDocs none) 0)) := by
    rw [k3, k0]
    exact hB
  have hn01 : ¬ (simKey (build_vector "cat very" (build_lexicon refDocs))
      (matCol (build_termdoc_matrix refDocs none) 1)
        ≤ simKey (build_vector "cat very" (build_lexicon refDocs))
          (matCol (build_termdoc_matrix refDocs none) 0)) := by
    rw [k1, k0]
    exact hC
  have hval : distanceF64 (build_vector "cat very" (build_lexicon refDocs))
      (matCol (build_termdoc_matrix refDocs none) 3) = ⟨9007199254740990, -53⟩ := by
    decide
  refine ⟨hcand, ?_, hval, ?_⟩
  · simp only [search]
    rw [hcand]
    simp only [List.insertionSort, List.orderedInsert, if_neg hn13, if_neg hn03,
      if_neg hn01]
  · rw [hval, F64.toQ]
    norm_num

end VSM
